import Mathlib

/-!
Verification of the byte-level BPE tokenizer found in
`LSTM-NLP-Predictions` (files `ByteTokenizer.py` and `BpeTokenier.py`).

The Python code is embedded shallowly:

* a Python `str` is a list of Unicode code points (`List Nat`);
* a Python `bytes` value is a list of byte values (`List Nat`, entries < 256);
* the tokenizer vocabulary `self.vocab` is a dict whose keys are always
  exactly `0, 1, ..., len(vocab) - 1` (entries are only ever added at key
  `len(vocab)`), so it is modelled as a `List (List Nat)` indexed by id;
* the merge table `self.merges` is a dict from id pairs to ids, modelled as
  an insertion-ordered association list;
* code that can raise (`merge`'s out-of-range indexing, `max` over an empty
  dict, dict lookup of a missing key) is modelled with `Option` / `Except`.

`count_pairs` and `max(cnt, key=cnt.get)` depend on dict iteration order,
which in Python 3.7+ is insertion order; the association-list model
preserves exactly that order, and `maxPair` keeps the first key attaining
the maximal count, as Python's `max` does.
-/

set_option maxHeartbeats 4000000

set_option maxRecDepth 100000

deriving instance DecidableEq for Except

namespace BPE

/-- Runtime errors the embedded Python code can raise (`IndexError` from
`merge`, `ValueError` from `max` over an empty dict, `KeyError` from a dict
lookup), plus a `fuel` marker used only by the fuel-indexed encode loop. -/
inductive PyErr where
  | indexError
  | valueError
  | keyError
  | fuel
deriving DecidableEq

/-- The byte string of the padding token, Python `b'<pad>'`. -/
def padTokenBytes : List Nat := [60, 112, 97, 100, 62]

/-- The byte string of the beginning-of-sequence token, Python `b'<bos>'`. -/
def bosTokenBytes : List Nat := [60, 98, 111, 115, 62]

/-- The byte string of the end-of-sequence token, Python `b'<eos>'`. -/
def eosTokenBytes : List Nat := [60, 101, 111, 115, 62]

/-- Tokenizer state: `self.vocab` (dict with keys `0..len-1`, modelled as a
list indexed by id) and `self.merges` (insertion-ordered dict from id pairs
to ids). -/
structure TKState where
  vocab : List (List Nat)
  merges : List ((Nat × Nat) × Nat)
deriving DecidableEq

/-- `ByteTokenizer.init_vocab`: 256 single-byte entries followed by the three
special tokens `<pad>`, `<bos>`, `<eos>` at ids 256, 257, 258. -/
def initVocab : List (List Nat) :=
  (List.range 256).map (fun idx => [idx]) ++ [padTokenBytes, bosTokenBytes, eosTokenBytes]

/-- The freshly (re)initialised tokenizer state: base vocabulary, no merges
(`BpeTokenizer.init_vocab` resets `self.merges = {}`). -/
def initState : TKState := ⟨initVocab, []⟩

/-- The reverse lookup `token_to_id = {y: x for x, y in self.vocab.items()}`
followed by `token_to_id[token]`: the *last* id whose byte value equals
`token` (later dict insertions overwrite earlier ones), `none` when the
byte value does not occur (Python would raise `KeyError`). -/
def tokenToId (vocab : List (List Nat)) (token : List Nat) : Option Nat :=
  (List.range vocab.length).foldl
    (fun acc i => if vocab.get? i = some token then some i else acc) none

/-- A Unicode code point Python's `str.encode('utf-8')` accepts: in range
and not a surrogate. -/
abbrev ValidCp (c : Nat) : Prop := c < 0x110000 ∧ (c < 0xD800 ∨ 0xDFFF < c)

/-- A valid Unicode string: every code point is encodable. -/
abbrev ValidStr (s : List Nat) : Prop := ∀ c ∈ s, ValidCp c

/-- UTF-8 encoding of one code point (the standard 1-4 byte form produced by
Python's `str.encode('utf-8')`). -/
def utf8EncodeChar (c : Nat) : List Nat :=
  if c < 0x80 then [c]
  else if c < 0x800 then [0xC0 + c / 0x40, 0x80 + c % 0x40]
  else if c < 0x10000 then
    [0xE0 + c / 0x1000, 0x80 + c / 0x40 % 0x40, 0x80 + c % 0x40]
  else
    [0xF0 + c / 0x40000, 0x80 + c / 0x1000 % 0x40, 0x80 + c / 0x40 % 0x40, 0x80 + c % 0x40]

/-- `text.encode('utf-8')`: concatenated UTF-8 bytes of all code points. -/
def utf8Encode (s : List Nat) : List Nat := (s.map utf8EncodeChar).flatten

/-- A UTF-8 continuation byte. -/
abbrev IsCont (b : Nat) : Prop := 0x80 ≤ b ∧ b ≤ 0xBF

/-- Constraint on the first continuation byte of a 3-byte sequence (rules
out overlong encodings after `0xE0` and surrogates after `0xED`). -/
abbrev Cont3Ok (b0 b1 : Nat) : Prop :=
  (b0 = 0xE0 → 0xA0 ≤ b1) ∧ (b0 = 0xED → b1 ≤ 0x9F) ∧ IsCont b1

/-- Constraint on the first continuation byte of a 4-byte sequence (rules
out overlong encodings after `0xF0` and code points above `0x10FFFF` after
`0xF4`). -/
abbrev Cont4Ok (b0 b1 : Nat) : Prop :=
  (b0 = 0xF0 → 0x90 ≤ b1) ∧ (b0 = 0xF4 → b1 ≤ 0x8F) ∧ IsCont b1

/-- One step of strict UTF-8 decoding: given the first byte `b0` and the
remaining bytes `bs`, produce the decoded code point — the replacement
character U+FFFD when `b0` does not start a valid sequence here — together
with how many further bytes of `bs` the sequence consumed. -/
def decodeStep (b0 : Nat) (bs : List Nat) : Nat × Nat :=
  if b0 < 0x80 then (b0, 0)
  else if b0 < 0xC2 then (0xFFFD, 0)
  else if b0 < 0xE0 then
    match bs with
    | b1 :: _ => if IsCont b1 then ((b0 - 0xC0) * 0x40 + (b1 - 0x80), 1) else (0xFFFD, 0)
    | [] => (0xFFFD, 0)
  else if b0 < 0xF0 then
    match bs with
    | b1 :: b2 :: _ =>
      if Cont3Ok b0 b1 ∧ IsCont b2 then
        ((b0 - 0xE0) * 0x1000 + (b1 - 0x80) * 0x40 + (b2 - 0x80), 2)
      else (0xFFFD, 0)
    | _ => (0xFFFD, 0)
  else if b0 < 0xF5 then
    match bs with
    | b1 :: b2 :: b3 :: _ =>
      if Cont4Ok b0 b1 ∧ IsCont b2 ∧ IsCont b3 then
        ((b0 - 0xF0) * 0x40000 + (b1 - 0x80) * 0x1000 + (b2 - 0x80) * 0x40 + (b3 - 0x80), 3)
      else (0xFFFD, 0)
    | _ => (0xFFFD, 0)
  else (0xFFFD, 0)

/-- `bytes.decode('utf-8', errors='replace')`: strict UTF-8 decoding that is
total, emitting the replacement character U+FFFD for bytes that do not start
a valid sequence.  (On ill-formed input Python groups a maximal invalid run
under a single replacement character; this model emits one replacement per
offending byte.  The two agree on every well-formed byte string, which is
the only case the theorems below rely on.) -/
def utf8Decode : List Nat → List Nat
  | [] => []
  | b0 :: bs =>
    (decodeStep b0 bs).1 :: utf8Decode (bs.drop (decodeStep b0 bs).2)
termination_by l => l.length
decreasing_by
simp only [List.length_cons, List.length_drop]
omega

/-- One `Dict[pair] += 1` / `Dict[pair] = 1` update from `count_pairs`:
increment the entry in place if the key is present, otherwise append it
(dicts preserve insertion order). -/
def bump : List ((Nat × Nat) × Nat) → Nat × Nat → List ((Nat × Nat) × Nat)
  | [], p => [(p, 1)]
  | (q, n) :: rest, p => if q = p then (q, n + 1) :: rest else (q, n) :: bump rest p

/-- The adjacent ordered pairs `(i[j], i[j+1])` of one sequence, in scan
order. -/
def adjPairs (l : List Nat) : List (Nat × Nat) := l.zip l.tail

/-- The inner loop of `count_pairs` over one sequence. -/
def countPairsOne (d : List ((Nat × Nat) × Nat)) (l : List Nat) : List ((Nat × Nat) × Nat) :=
  (adjPairs l).foldl bump d

/-- `count_pairs(data)` from `ByteTokenizer.py`: pooled adjacent-pair counts
over all sequences, as an insertion-ordered dict. -/
def count_pairs (data : List (List Nat)) : List ((Nat × Nat) × Nat) :=
  data.foldl countPairsOne []

/-- Total dict read: the count stored for `q` (0 when absent). -/
def lookA : List ((Nat × Nat) × Nat) → Nat × Nat → Nat
  | [], _ => 0
  | (p, n) :: rest, q => if p = q then n else lookA rest q

/-- Dict membership test plus lookup, modelling
`pair in self.merges` / `self.merges[pair]`. -/
def findA : List ((Nat × Nat) × Nat) → Nat × Nat → Option Nat
  | [], _ => none
  | (p, n) :: rest, q => if p = q then some n else findA rest q

/-- `max(cnt, key=cnt.get)` together with `cnt[pair]`: the first key (in
dict order) attaining the maximal count, paired with that count; `none` for
an empty dict (Python raises `ValueError` there). -/
def maxPair : List ((Nat × Nat) × Nat) → Option ((Nat × Nat) × Nat)
  | [] => none
  | x :: xs => some (xs.foldl (fun best y => if y.2 > best.2 then y else best) x)

/-- Number of adjacent occurrences of the ordered pair `q` in `ids`. -/
def countAdj (ids : List Nat) (q : Nat × Nat) : Nat := (adjPairs ids).count q

/-- The loop of `merge(numbers, pair, idx)` from `ByteTokenizer.py`,
translated statement by statement.  `numbers` is the current value of the
mutated list object and `i` the scan index; the loop guard is
`i != len(numbers) - 1`, written `i + 1 ≠ numbers.length` (over the integers
the two are equivalent, including for the empty list).  `.error .indexError`
is the `IndexError` raised when `numbers[i]` or `numbers[i+1]` is read out
of range; `numbers[i] = idx` is `List.set` and `del numbers[i+1]` is
`List.eraseIdx`.  The loop is indexed by fuel so that it reduces by kernel
computation; `merge` passes fuel `numbers.length`, which `merge_eq` proves
sufficient: `.error .fuel` is unreachable from `merge`. -/
def mergeLoop (pair : Nat × Nat) (idx : Nat) :
    Nat → List Nat → Nat → Except PyErr (List Nat)
  | fuel, numbers, i =>
    if i + 1 = numbers.length then .ok numbers
    else
      match numbers.get? i, numbers.get? (i + 1) with
      | some a, some b =>
        match fuel with
        | 0 => .error .fuel
        | fuel + 1 =>
          if (a, b) = pair then
            mergeLoop pair idx fuel ((numbers.set i idx).eraseIdx (i + 1)) (i + 1)
          else mergeLoop pair idx fuel numbers (i + 1)
      | _, _ => .error .indexError

/-- `merge(numbers, pair, idx)`: the value of the (mutated) list returned by
the function, or the raised `IndexError`. -/
def merge (numbers : List Nat) (pair : Nat × Nat) (idx : Nat) : Except PyErr (List Nat) :=
  mergeLoop pair idx numbers.length numbers 0

/-- Shallow embedding of the whole call `result = merge(numbers, pair, idx)`
as seen by the caller: the first component is the final value of the list
object that was passed in (which the function body mutates via
`numbers[i] = idx` / `del numbers[i+1]`), the second the returned value.
The body ends in `return numbers`, i.e. it returns the mutated object
itself, so both components are the threaded final value. -/
def mergeCall (numbers : List Nat) (pair : Nat × Nat) (idx : Nat) :
    Option (List Nat × List Nat) :=
  match merge numbers pair idx with
  | .ok r => some (r, r)
  | .error _ => none

/-- The left-to-right non-overlapping rewrite the spec describes for the
sequence merger: replace each scanned occurrence of `pair` by `idx` and
resume scanning after the replacement. -/
def rewriteLR : List Nat → Nat × Nat → Nat → List Nat
  | [], _, _ => []
  | [a], _, _ => [a]
  | a :: b :: rest, p, idx =>
    if (a, b) = p then idx :: rewriteLR rest p idx
    else a :: rewriteLR (b :: rest) p idx

/-- Decides whether `merge` raises `IndexError` on this input: true exactly
when the list is empty, or when the left-to-right non-overlapping scan
replaces an occurrence of `pair` that ends at the last position of the (by
then shortened) list — after such a replacement the scan index steps past
`len - 1` and the next element read is out of range.  The recursion mirrors
the scan: an empty remainder after a replacement is precisely the
«replacement consumed the final two elements» case. -/
def crashes : List Nat → Nat × Nat → Bool
  | [], _ => true
  | [_], _ => false
  | a :: b :: rest, p => if (a, b) = p then crashes rest p else crashes (b :: rest) p

/-- `b''.join(self.vocab[idx] for idx in ids)`: concatenated byte values of
the ids, `none` if some id is missing from the vocabulary (`KeyError`). -/
def vocabBytes (vocab : List (List Nat)) : List Nat → Option (List Nat)
  | [] => some []
  | i :: rest =>
    match vocab.get? i, vocabBytes vocab rest with
    | some v, some tailBytes => some (v ++ tailBytes)
    | _, _ => none

/-- `ByteTokenizer.decode(ids)` (inherited by `BpeTokenizer`): join the byte
values and decode them as UTF-8 with the replacement policy. -/
def bpeDecode (st : TKState) (ids : List Nat) : Option (List Nat) :=
  (vocabBytes st.vocab ids).map utf8Decode

/-- The `while len(ids) > 1` loop of `BpeTokenizer.encode`, indexed by fuel.
Each iteration recounts pair frequencies inside the single working sequence,
takes the first maximal pair, stops if it is not in the frozen merge table,
and otherwise applies `merge`.  A `.error .fuel` result can only arise when
the fuel is exhausted; every successful `merge` shortens the sequence, so
fuel `ids.length` is always sufficient (see `encodeLoop_no_fuel`). -/
def encodeLoop (merges : List ((Nat × Nat) × Nat)) (fuel : Nat) (ids : List Nat) :
    Except PyErr (List Nat) :=
  if ids.length ≤ 1 then .ok ids
  else
    match fuel with
    | 0 => .error .fuel
    | fuel + 1 =>
      match maxPair (count_pairs [ids]) with
      | none => .error .valueError
      | some (pair, _) =>
        match findA merges pair with
        | none => .ok ids
        | some idx =>
          match merge ids pair idx with
          | .error e => .error e
          | .ok ids2 => encodeLoop merges fuel ids2

/-- `BpeTokenizer.encode(text)`: UTF-8 byte expansion followed by the merge
loop against the frozen merge table. -/
def bpeEncode (st : TKState) (text : List Nat) : Except PyErr (List Nat) :=
  encodeLoop st.merges (utf8Encode text).length (utf8Encode text)

/-- The rewrite pass `for i, ids in enumerate(list_of_ids): list_of_ids[i] =
merge(ids, pair, new_idx)` of `BpeTokenizer.train`; the first raised
exception propagates. -/
def mergeAll : List (List Nat) → Nat × Nat → Nat → Except PyErr (List (List Nat))
  | [], _, _ => .ok []
  | l :: rest, pair, idx =>
    match merge l pair idx with
    | .error e => .error e
    | .ok l2 =>
      match mergeAll rest pair idx with
      | .error e => .error e
      | .ok rest2 => .ok (l2 :: rest2)

/-- One iteration of the training loop of `BpeTokenizer.train`: count pairs,
pick the first maximal pair (`ValueError` when there is none), stop when its
pooled frequency is 1, otherwise record the merge, extend the vocabulary
with the byte concatenation, and rewrite every sequence.  Errors carry the
tokenizer state at the moment the exception escapes (`self.vocab` /
`self.merges` are fields mutated before the raising statement): on
`KeyError` the merge entry is already recorded but the vocabulary entry is
not; on `IndexError` both are. -/
def trainStep (st : TKState) (seqs : List (List Nat)) :
    Except (PyErr × TKState) (Option (TKState × List (List Nat))) :=
  match maxPair (count_pairs seqs) with
  | none => .error (.valueError, st)
  | some (pair, freq) =>
    if freq = 1 then .ok none
    else
      match st.vocab.get? pair.1, st.vocab.get? pair.2 with
      | some v1, some v2 =>
        match mergeAll seqs pair st.vocab.length with
        | .ok seqs2 =>
          .ok (some (⟨st.vocab ++ [v1 ++ v2], st.merges ++ [(pair, st.vocab.length)]⟩, seqs2))
        | .error e =>
          .error (e, ⟨st.vocab ++ [v1 ++ v2], st.merges ++ [(pair, st.vocab.length)]⟩)
      | _, _ => .error (.keyError, ⟨st.vocab, st.merges ++ [(pair, st.vocab.length)]⟩)

/-- The `for _ in progress_bar` loop of `BpeTokenizer.train`: at most `fuel`
iterations (`fuel = max_vocab - len(vocab)`), stopping early on pooled
maximal frequency 1. -/
def trainLoop : Nat → TKState → List (List Nat) → Except (PyErr × TKState) TKState
  | 0, st, _ => .ok st
  | fuel + 1, st, seqs =>
    match trainStep st seqs with
    | .error e => .error e
    | .ok none => .ok st
    | .ok (some (st2, seqs2)) => trainLoop fuel st2 seqs2

/-- `BpeTokenizer.train(texts, max_vocab)`: reset the state, return at once
when the target does not exceed the base size, otherwise expand every text
to UTF-8 byte ids and run the merge loop.  The result is the tokenizer state
on normal return, or the raised error paired with the state left behind. -/
def train (texts : List (List Nat)) (maxVocab : Nat) : Except (PyErr × TKState) TKState :=
  if maxVocab ≤ initState.vocab.length then .ok initState
  else trainLoop (maxVocab - initState.vocab.length) initState (texts.map utf8Encode)

/-- The tokenizer state after a call of `train`, whether it returned
normally or raised. -/
def runState : Except (PyErr × TKState) TKState → TKState
  | .ok st => st
  | .error (_, st) => st

/-- Byte-concatenation soundness of the merge table (spec §3 and §8): every
recorded merge `(left, right) ↦ n` maps to a vocabulary entry that is the
concatenation of the byte values of `left` and `right`, and both constituent
ids were already present in the vocabulary when the entry was recorded
(their ids are below `n`, the size of the vocabulary at that moment). -/
def MergeInv (st : TKState) : Prop :=
  ∀ p n, (p, n) ∈ st.merges →
    p.1 < n ∧ p.2 < n ∧ n < st.vocab.length ∧
    ∃ v1 v2, st.vocab.get? p.1 = some v1 ∧ st.vocab.get? p.2 = some v2 ∧
      st.vocab.get? n = some (v1 ++ v2)

/-- Every id occurring in the working sequences is a key of the vocabulary. -/
def SeqsOk (st : TKState) (seqs : List (List Nat)) : Prop :=
  ∀ l ∈ seqs, ∀ x ∈ l, x < st.vocab.length

/-! ### Characterisation of `merge` -/

theorem set_append_len (done l : List Nat) (v : Nat) :
    (done ++ l).set done.length v = done ++ l.set 0 v := by
  induction done with
  | nil => simp
  | cons d ds ih => simpa using ih

theorem eraseIdx_append_len (done l : List Nat) (k : Nat) :
    (done ++ l).eraseIdx (done.length + k) = done ++ l.eraseIdx k := by
  induction done with
  | nil => simp
  | cons d ds ih =>
    have h : ds.length + 1 + k = (ds.length + k) + 1 := by omega
    simp only [List.cons_append, List.length_cons, h, List.eraseIdx]
    rw [ih]

theorem get_append_len (done l : List Nat) (k : Nat) :
    (done ++ l).get? (done.length + k) = l.get? k := by
  rw [List.get?_append_right (by omega)]
  congr 1
  omega

/-- The loop of `merge`, run on the unprocessed suffix `todo` with processed
prefix `done`: it raises `IndexError` exactly when `crashes` says so, and
otherwise returns the left-to-right non-overlapping rewrite of the suffix.
In particular fuel `todo.length` is always sufficient. -/
theorem mergeLoop_spec (p : Nat × Nat) (idx : Nat) :
    ∀ (todo done : List Nat) (fuel : Nat), todo.length ≤ fuel →
      mergeLoop p idx fuel (done ++ todo) done.length =
        if crashes todo p then .error .indexError
        else .ok (done ++ rewriteLR todo p idx)
  | [], done, fuel => by
    intro _
    unfold mergeLoop
    rw [if_neg (by simp)]
    have hg : (done ++ ([] : List Nat)).get? done.length = none := by
      simp [List.get?_length]
    rw [hg]
    simp [crashes]
  | [a], done, fuel => by
    intro _
    unfold mergeLoop
    rw [if_pos (by simp)]
    simp [crashes, rewriteLR]
  | a :: b :: rest, done, fuel => by
    intro hfuel
    simp only [List.length_cons] at hfuel
    obtain ⟨f, rfl⟩ : ∃ f, fuel = f + 1 := ⟨fuel - 1, by omega⟩
    unfold mergeLoop
    rw [if_neg (by simp only [List.length_append, List.length_cons]; omega)]
    have hga : (done ++ a :: b :: rest).get? done.length = some a := by
      simpa using get_append_len done (a :: b :: rest) 0
    have hgb : (done ++ a :: b :: rest).get? (done.length + 1) = some b := by
      simpa using get_append_len done (a :: b :: rest) 1
    rw [hga, hgb]
    dsimp only
    by_cases hp : (a, b) = p
    · rw [if_pos hp]
      have hset : ((done ++ a :: b :: rest).set done.length idx).eraseIdx (done.length + 1) =
          (done ++ [idx]) ++ rest := by
        rw [set_append_len, eraseIdx_append_len]
        simp [List.set, List.eraseIdx]
      rw [hset]
      have hlen : done.length + 1 = (done ++ [idx]).length := by simp
      rw [hlen, mergeLoop_spec p idx rest (done ++ [idx]) f (by omega)]
      simp only [crashes, rewriteLR, if_pos hp]
      split
      · rfl
      · simp
    · rw [if_neg hp]
      have hsplit : done ++ a :: b :: rest = (done ++ [a]) ++ (b :: rest) := by simp
      have hlen : done.length + 1 = (done ++ [a]).length := by simp
      rw [hsplit, hlen, mergeLoop_spec p idx (b :: rest) (done ++ [a]) f (by simp; omega)]
      simp only [crashes, rewriteLR, if_neg hp]
      split
      · rfl
      · simp

/-- `merge` either raises `IndexError` (exactly in the `crashes` cases) or
returns the left-to-right non-overlapping rewrite; it never runs out of
fuel. -/
theorem merge_eq (numbers : List Nat) (p : Nat × Nat) (idx : Nat) :
    merge numbers p idx =
      if crashes numbers p then .error .indexError
      else .ok (rewriteLR numbers p idx) := by
  have h := mergeLoop_spec p idx numbers [] numbers.length (Nat.le_refl _)
  simpa using h

theorem rewriteLR_mem :
    ∀ (l : List Nat) (p : Nat × Nat) (idx x : Nat), x ∈ rewriteLR l p idx → x ∈ l ∨ x = idx
  | [], _, _, _ => by simp [rewriteLR]
  | [a], _, _, x => by
    intro h
    simp [rewriteLR] at h
    simp [h]
  | a :: b :: rest, p, idx, x => by
    intro h
    simp only [rewriteLR] at h
    split at h
    · rcases List.mem_cons.mp h with h1 | h1
      · right; exact h1
      · rcases rewriteLR_mem rest p idx x h1 with h2 | h2
        · left; simp [h2]
        · right; exact h2
    · rcases List.mem_cons.mp h with h1 | h1
      · left; simp [h1]
      · rcases rewriteLR_mem (b :: rest) p idx x h1 with h2 | h2
        · left; simp at h2 ⊢; tauto
        · right; exact h2

/-! ### Properties of `count_pairs` and of `max(cnt, key=cnt.get)` -/

/-- The keys of an association-list dict, in insertion order. -/
def keysA (d : List ((Nat × Nat) × Nat)) : List (Nat × Nat) := d.map Prod.fst

theorem lookA_bump (d : List ((Nat × Nat) × Nat)) (p q : Nat × Nat) :
    lookA (bump d p) q = if p = q then lookA d q + 1 else lookA d q := by
  induction d with
  | nil =>
    by_cases h : p = q <;> simp [bump, lookA, h]
  | cons e rest ih =>
    obtain ⟨r, n⟩ := e
    by_cases h1 : r = p
    · subst h1
      by_cases h2 : r = q <;> simp [bump, lookA, h2]
    · by_cases h2 : r = q
      · subst h2
        simp [bump, lookA, h1, if_neg (Ne.symm h1)]
      · simp [bump, lookA, h1, h2, ih]

theorem lookA_foldl_bump (pl : List (Nat × Nat)) :
    ∀ (d : List ((Nat × Nat) × Nat)) (q : Nat × Nat),
      lookA (pl.foldl bump d) q = lookA d q + pl.count q := by
  induction pl with
  | nil => simp
  | cons x xs ih =>
    intro d q
    simp only [List.foldl_cons, ih, lookA_bump]
    by_cases h : x = q
    · subst h
      simp [List.count_cons_self]
      omega
    · rw [if_neg h, List.count_cons_of_ne (by simpa using fun e => h e.symm)]

theorem lookA_foldl_cpo (data : List (List Nat)) :
    ∀ (d : List ((Nat × Nat) × Nat)) (q : Nat × Nat),
      lookA (data.foldl countPairsOne d) q =
        lookA d q + (data.map (fun l => countAdj l q)).sum := by
  induction data with
  | nil => simp
  | cons l rest ih =>
    intro d q
    simp only [List.foldl_cons, ih, countPairsOne, lookA_foldl_bump, countAdj, List.map_cons,
      List.sum_cons]
    omega

/-- The pooled pair count: `count_pairs` stores, for each pair, the total
number of its adjacent occurrences over all sequences. -/
theorem lookA_count_pairs (data : List (List Nat)) (q : Nat × Nat) :
    lookA (count_pairs data) q = (data.map (fun l => countAdj l q)).sum := by
  simpa [count_pairs, lookA] using lookA_foldl_cpo data [] q

theorem keysA_bump_mem (p : Nat × Nat) :
    ∀ (d : List ((Nat × Nat) × Nat)) (x : Nat × Nat),
      x ∈ keysA (bump d p) → x ∈ keysA d ∨ x = p
  | [], x => by simp [bump, keysA]
  | (r, n) :: rest, x => by
    by_cases h : r = p
    · simp only [bump, if_pos h, keysA, List.map_cons, List.mem_cons]
      tauto
    · intro hx
      simp only [bump, if_neg h, keysA, List.map_cons, List.mem_cons] at hx
      rcases hx with hx | hx
      · left; simp [keysA, hx]
      · rcases keysA_bump_mem p rest x hx with h2 | h2
        · left
          simp only [keysA, List.map_cons, List.mem_cons]
          right
          exact h2
        · right; exact h2

theorem keysA_bump_nodup (p : Nat × Nat) :
    ∀ (d : List ((Nat × Nat) × Nat)), (keysA d).Nodup → (keysA (bump d p)).Nodup
  | [], _ => by simp [bump, keysA]
  | (r, n) :: rest, hnd => by
    rw [keysA, List.map_cons, List.nodup_cons] at hnd
    by_cases h : r = p
    · simp only [bump, if_pos h, keysA, List.map_cons, List.nodup_cons]
      exact hnd
    · simp only [bump, if_neg h, keysA, List.map_cons, List.nodup_cons]
      refine ⟨fun hx => ?_, keysA_bump_nodup p rest hnd.2⟩
      rcases keysA_bump_mem p rest r hx with h2 | h2
      · exact hnd.1 h2
      · exact h h2

theorem keysA_foldl_bump_nodup (pl : List (Nat × Nat)) :
    ∀ (d : List ((Nat × Nat) × Nat)), (keysA d).Nodup → (keysA (pl.foldl bump d)).Nodup := by
  induction pl with
  | nil => intro d h; exact h
  | cons x xs ih => intro d h; exact ih _ (keysA_bump_nodup x d h)

theorem count_pairs_nodup (data : List (List Nat)) : (keysA (count_pairs data)).Nodup := by
  rw [count_pairs]
  have hgen : ∀ (d : List ((Nat × Nat) × Nat)), (keysA d).Nodup →
      (keysA (data.foldl countPairsOne d)).Nodup := by
    induction data with
    | nil => intro d h; exact h
    | cons l rest ih =>
      intro d h
      exact ih _ (keysA_foldl_bump_nodup (adjPairs l) d h)
  exact hgen [] (by simp [keysA])

theorem mem_lookA :
    ∀ (d : List ((Nat × Nat) × Nat)), (keysA d).Nodup →
      ∀ q n, (q, n) ∈ d → lookA d q = n
  | [], _, q, n => by simp
  | (r, m) :: rest, hnd, q, n => by
    intro hmem
    rw [keysA, List.map_cons, List.nodup_cons] at hnd
    rcases List.mem_cons.mp hmem with h | h
    · injection h with h1 h2
      simp [lookA, h1, h2]
    · have hne : r ≠ q := by
        intro he
        exact hnd.1 (he ▸ (List.mem_map.mpr ⟨(q, n), h, rfl⟩))
      simp only [lookA, if_neg hne]
      exact mem_lookA rest hnd.2 q n h

theorem lookA_pos_mem :
    ∀ (d : List ((Nat × Nat) × Nat)) (q : Nat × Nat), lookA d q ≠ 0 → (q, lookA d q) ∈ d
  | [], q => by simp [lookA]
  | (r, m) :: rest, q => by
    intro h
    by_cases he : r = q
    · subst he
      simp [lookA] at h ⊢
    · simp only [lookA, if_neg he] at h ⊢
      exact List.mem_cons_of_mem _ (lookA_pos_mem rest q h)

theorem bump_pos (p : Nat × Nat) :
    ∀ (d : List ((Nat × Nat) × Nat)), (∀ x ∈ d, 1 ≤ x.2) → ∀ x ∈ bump d p, 1 ≤ x.2
  | [], _ => by simp [bump]
  | (r, n) :: rest, hd => by
    intro x hx
    by_cases he : r = p
    · simp only [bump, if_pos he, List.mem_cons] at hx
      rcases hx with hx | hx
      · simp [hx]
      · exact hd x (List.mem_cons_of_mem _ hx)
    · simp only [bump, if_neg he, List.mem_cons] at hx
      rcases hx with hx | hx
      · exact hd x (by simp [hx])
      · exact bump_pos p rest (fun v hv => hd v (List.mem_cons_of_mem _ hv)) x hx

theorem foldl_bump_pos (pl : List (Nat × Nat)) :
    ∀ (d : List ((Nat × Nat) × Nat)), (∀ x ∈ d, 1 ≤ x.2) →
      ∀ x ∈ pl.foldl bump d, 1 ≤ x.2 := by
  induction pl with
  | nil => intro d h; exact h
  | cons z zs ih => intro d h; exact ih _ (bump_pos z d h)

theorem count_pairs_pos (data : List (List Nat)) : ∀ x ∈ count_pairs data, 1 ≤ x.2 := by
  rw [count_pairs]
  have hgen : ∀ (d : List ((Nat × Nat) × Nat)), (∀ x ∈ d, 1 ≤ x.2) →
      ∀ x ∈ data.foldl countPairsOne d, 1 ≤ x.2 := by
    induction data with
    | nil => intro d h; exact h
    | cons l rest ih =>
      intro d h
      exact ih _ (foldl_bump_pos (adjPairs l) d h)
  exact hgen [] (by simp)

theorem maxPair_foldl_mem_ge (x0 : (Nat × Nat) × Nat) (xs : List ((Nat × Nat) × Nat)) :
    (xs.foldl (fun best y => if y.2 > best.2 then y else best) x0) ∈ x0 :: xs ∧
      ∀ y ∈ x0 :: xs, y.2 ≤ (xs.foldl (fun best y => if y.2 > best.2 then y else best) x0).2 := by
  induction xs generalizing x0 with
  | nil => simp
  | cons z zs ih =>
    simp only [List.foldl_cons]
    by_cases h : z.2 > x0.2
    · rw [if_pos h]
      obtain ⟨h1, h2⟩ := ih z
      constructor
      · rcases List.mem_cons.mp h1 with h3 | h3
        · simp [h3]
        · simp [List.mem_cons_of_mem _ h3]
      · intro y hy
        rcases List.mem_cons.mp hy with h3 | h3
        · have := h2 z (by simp)
          simp only [h3]
          omega
        · exact h2 y h3
    · rw [if_neg h]
      obtain ⟨h1, h2⟩ := ih x0
      constructor
      · rcases List.mem_cons.mp h1 with h3 | h3
        · simp [h3]
        · simp [List.mem_cons_of_mem _ (List.mem_cons_of_mem _ h3)]
      · intro y hy
        rcases List.mem_cons.mp hy with h3 | h3
        · exact h2 y (by simp [h3])
        · rcases List.mem_cons.mp h3 with h4 | h4
          · have := h2 x0 (by simp)
            simp only [h4]
            omega
          · exact h2 y (by simp [List.mem_cons_of_mem _ h4])

/-- Python's `max` over a nonempty dict returns a key of the dict (with its
stored count). -/
theorem maxPair_mem (l : List ((Nat × Nat) × Nat)) (x : (Nat × Nat) × Nat)
    (h : maxPair l = some x) : x ∈ l := by
  match l with
  | [] => simp [maxPair] at h
  | y :: ys =>
    simp only [maxPair, Option.some.injEq] at h
    exact h ▸ (maxPair_foldl_mem_ge y ys).1

/-- The key returned by `max(cnt, key=cnt.get)` attains the maximal stored
count. -/
theorem maxPair_ge (l : List ((Nat × Nat) × Nat)) (x : (Nat × Nat) × Nat)
    (h : maxPair l = some x) : ∀ y ∈ l, y.2 ≤ x.2 := by
  match l with
  | [] => simp [maxPair] at h
  | y :: ys =>
    simp only [maxPair, Option.some.injEq] at h
    intro z hz
    exact h ▸ (maxPair_foldl_mem_ge y ys).2 z hz

/-- Within a single sequence, the pair selected by
`max(count_pairs([ids]), key=cnt.get)` occurs exactly `f` times and no pair
occurs more often: selection is by frequency inside the sequence being
encoded. -/
theorem maxPair_count_max (ids : List Nat) (p : Nat × Nat) (f : Nat)
    (h : maxPair (count_pairs [ids]) = some (p, f)) :
    countAdj ids p = f ∧ ∀ q, countAdj ids q ≤ f := by
  have hlook : ∀ q, lookA (count_pairs [ids]) q = countAdj ids q := by
    intro q
    simp [lookA_count_pairs]
  have hf : countAdj ids p = f := by
    have := mem_lookA (count_pairs [ids]) (count_pairs_nodup [ids]) p f (maxPair_mem _ _ h)
    rw [hlook] at this
    exact this
  refine ⟨hf, fun q => ?_⟩
  by_cases h0 : countAdj ids q = 0
  · have := count_pairs_pos [ids] (p, f) (maxPair_mem _ _ h)
    omega
  · have hmem : (q, countAdj ids q) ∈ count_pairs [ids] := by
      have := lookA_pos_mem (count_pairs [ids]) q (by rw [hlook]; exact h0)
      rwa [hlook] at this
    exact maxPair_ge _ _ h (q, countAdj ids q) hmem

theorem adjPairs_mem (l : List Nat) (x y : Nat) (h : (x, y) ∈ adjPairs l) :
    x ∈ l ∧ y ∈ l := by
  have := List.of_mem_zip h
  exact ⟨this.1, List.mem_of_mem_tail this.2⟩

/-- Any pair selected by the trainer occurs adjacently in some training
sequence. -/
theorem maxPair_pair_in_data (data : List (List Nat)) (p : Nat × Nat) (f : Nat)
    (h : maxPair (count_pairs data) = some (p, f)) :
    ∃ l ∈ data, p ∈ adjPairs l := by
  have hmem := maxPair_mem _ _ h
  have hval := mem_lookA (count_pairs data) (count_pairs_nodup data) p f hmem
  have hpos : 1 ≤ f := count_pairs_pos data (p, f) hmem
  rw [lookA_count_pairs] at hval
  have hex : ∃ l ∈ data, countAdj l p ≠ 0 := by
    by_contra hall
    push_neg at hall
    have : (data.map (fun l => countAdj l p)).sum = 0 := by
      apply List.sum_eq_zero
      intro x hx
      obtain ⟨l, hl, rfl⟩ := List.mem_map.mp hx
      exact hall l hl
    omega
  obtain ⟨l, hl, hc⟩ := hex
  refine ⟨l, hl, ?_⟩
  have : 0 < (adjPairs l).count p := by
    have : countAdj l p ≠ 0 := hc
    unfold countAdj at this
    omega
  exact List.count_pos_iff_mem.mp this

/-- A corpus whose sequences all have length at most 1 yields an empty pair
count. -/
theorem count_pairs_short (data : List (List Nat)) (h : ∀ l ∈ data, l.length ≤ 1) :
    count_pairs data = [] := by
  rw [count_pairs]
  have hgen : ∀ l ∈ data, countPairsOne ([] : List ((Nat × Nat) × Nat)) l = [] := by
    intro l hl
    have : adjPairs l = [] := by
      match l, h l hl with
      | [], _ => rfl
      | [a], _ => rfl
    simp [countPairsOne, this]
  induction data with
  | nil => rfl
  | cons l rest ih =>
    rw [List.foldl_cons, hgen l (by simp)]
    exact ih (fun x hx => h x (List.mem_cons_of_mem _ hx)) fun x hx => hgen x (List.mem_cons_of_mem _ hx)

/-- A sequence of length at least 2 has a nonempty pair count, so `max` in
the encode loop never sees an empty dict. -/
theorem count_pairs_single_ne_nil (ids : List Nat) (h : 2 ≤ ids.length) :
    count_pairs [ids] ≠ [] := by
  match ids, h with
  | a :: b :: t, _ =>
    intro hnil
    have h1 : lookA (count_pairs [a :: b :: t]) (a, b) = countAdj (a :: b :: t) (a, b) := by
      simp [lookA_count_pairs]
    have h2 : 1 ≤ countAdj (a :: b :: t) (a, b) := by
      have : adjPairs (a :: b :: t) = (a, b) :: adjPairs (b :: t) := rfl
      unfold countAdj
      rw [this]
      simp [List.count_cons_self]
    rw [hnil] at h1
    simp [lookA] at h1
    omega

/-! ### UTF-8 round trip -/

theorem utf8EncodeChar_lt (c : Nat) (hc : c < 0x110000) :
    ∀ b ∈ utf8EncodeChar c, b < 256 := by
  intro b hb
  unfold utf8EncodeChar at hb
  split at hb
  · simp at hb
    omega
  · split at hb
    · simp at hb
      rcases hb with hb | hb <;> omega
    · split at hb
      · simp at hb
        rcases hb with hb | hb | hb <;> omega
      · simp at hb
        rcases hb with hb | hb | hb | hb <;> omega

theorem utf8Encode_lt (s : List Nat) (hs : ∀ c ∈ s, c < 0x110000) :
    ∀ b ∈ utf8Encode s, b < 256 := by
  intro b hb
  unfold utf8Encode at hb
  obtain ⟨l, hl, hbl⟩ := List.mem_flatten.mp hb
  obtain ⟨c, hc, rfl⟩ := List.mem_map.mp hl
  exact utf8EncodeChar_lt c (hs c hc) b hbl

/-- Decoding consumes a validly encoded code point in one step. -/
theorem utf8Decode_encodeChar (c : Nat) (hc : ValidCp c) (rest : List Nat) :
    utf8Decode (utf8EncodeChar c ++ rest) = c :: utf8Decode rest := by
  obtain ⟨hlt, hsur⟩ := hc
  by_cases h1 : c < 0x80
  · have he : utf8EncodeChar c = [c] := by
      unfold utf8EncodeChar
      rw [if_pos h1]
    rw [he]
    simp only [List.cons_append, List.nil_append]
    rw [utf8Decode.eq_def]
    dsimp only
    have hd : decodeStep c rest = (c, 0) := by
      unfold decodeStep
      rw [if_pos h1]
    rw [hd]
    simp
  · by_cases h2 : c < 0x800
    · have he : utf8EncodeChar c = [0xC0 + c / 0x40, 0x80 + c % 0x40] := by
        unfold utf8EncodeChar
        rw [if_neg h1, if_pos h2]
      rw [he]
      simp only [List.cons_append, List.nil_append]
      rw [utf8Decode.eq_def]
      dsimp only
      have hd : decodeStep (0xC0 + c / 0x40) ((0x80 + c % 0x40) :: rest) = (c, 1) := by
        unfold decodeStep
        rw [if_neg (by omega), if_neg (by omega), if_pos (by omega)]
        dsimp only
        rw [if_pos (show IsCont (0x80 + c % 0x40) by constructor <;> omega)]
        congr 1
        omega
      rw [hd]
      simp
    · by_cases h3 : c < 0x10000
      · have he : utf8EncodeChar c =
            [0xE0 + c / 0x1000, 0x80 + c / 0x40 % 0x40, 0x80 + c % 0x40] := by
          unfold utf8EncodeChar
          rw [if_neg h1, if_neg h2, if_pos h3]
        rw [he]
        simp only [List.cons_append, List.nil_append]
        rw [utf8Decode.eq_def]
        dsimp only
        have hd : decodeStep (0xE0 + c / 0x1000)
            ((0x80 + c / 0x40 % 0x40) :: (0x80 + c % 0x40) :: rest) = (c, 2) := by
          unfold decodeStep
          rw [if_neg (by omega), if_neg (by omega), if_neg (by omega), if_pos (by omega)]
          dsimp only
          rw [if_pos (show Cont3Ok (0xE0 + c / 0x1000) (0x80 + c / 0x40 % 0x40) ∧
              IsCont (0x80 + c % 0x40) by
            refine ⟨⟨fun h => ?_, fun h => ?_, ?_, ?_⟩, ?_, ?_⟩ <;> omega)]
          congr 1
          omega
        rw [hd]
        simp
      · have he : utf8EncodeChar c =
            [0xF0 + c / 0x40000, 0x80 + c / 0x1000 % 0x40, 0x80 + c / 0x40 % 0x40,
              0x80 + c % 0x40] := by
          unfold utf8EncodeChar
          rw [if_neg h1, if_neg h2, if_neg h3]
        rw [he]
        simp only [List.cons_append, List.nil_append]
        rw [utf8Decode.eq_def]
        dsimp only
        have hd : decodeStep (0xF0 + c / 0x40000)
            ((0x80 + c / 0x1000 % 0x40) :: (0x80 + c / 0x40 % 0x40) :: (0x80 + c % 0x40) :: rest) =
            (c, 3) := by
          unfold decodeStep
          rw [if_neg (by omega), if_neg (by omega), if_neg (by omega), if_neg (by omega),
            if_pos (by omega)]
          dsimp only
          rw [if_pos (show Cont4Ok (0xF0 + c / 0x40000) (0x80 + c / 0x1000 % 0x40) ∧
              IsCont (0x80 + c / 0x40 % 0x40) ∧ IsCont (0x80 + c % 0x40) by
            refine ⟨⟨fun h => ?_, fun h => ?_, ?_, ?_⟩, ⟨?_, ?_⟩, ?_, ?_⟩ <;> omega)]
          congr 1
          omega
        rw [hd]
        simp

/-- Round trip of the byte-level codec on valid Unicode strings. -/
theorem utf8_round_trip (s : List Nat) (hs : ValidStr s) :
    utf8Decode (utf8Encode s) = s := by
  induction s with
  | nil =>
    rw [show utf8Encode [] = ([] : List Nat) from rfl, utf8Decode.eq_def]
  | cons c cs ih =>
    have h1 : utf8Encode (c :: cs) = utf8EncodeChar c ++ utf8Encode cs := by
      simp [utf8Encode]
    rw [h1, utf8Decode_encodeChar c (hs c (by simp)),
      ih (fun x hx => hs x (by simp [hx]))]

/-! ### Unfolding equations for the encode loop, and decode helpers -/

theorem encodeLoop_stop_short (merges : List ((Nat × Nat) × Nat)) (fuel : Nat)
    (ids : List Nat) (h : ids.length ≤ 1) : encodeLoop merges fuel ids = .ok ids := by
  unfold encodeLoop
  rw [if_pos h]

theorem encodeLoop_stop_nomerge (merges : List ((Nat × Nat) × Nat)) (fuel : Nat)
    (ids : List Nat) (p : Nat × Nat) (fr : Nat) (h2 : 2 ≤ ids.length)
    (hmax : maxPair (count_pairs [ids]) = some (p, fr)) (hfind : findA merges p = none) :
    encodeLoop merges (fuel + 1) ids = .ok ids := by
  unfold encodeLoop
  rw [if_neg (by omega)]
  dsimp only
  rw [hmax]
  dsimp only
  rw [hfind]

theorem encodeLoop_step_error (merges : List ((Nat × Nat) × Nat)) (fuel : Nat)
    (ids : List Nat) (p : Nat × Nat) (fr idx : Nat) (e : PyErr) (h2 : 2 ≤ ids.length)
    (hmax : maxPair (count_pairs [ids]) = some (p, fr)) (hfind : findA merges p = some idx)
    (hmerge : merge ids p idx = .error e) :
    encodeLoop merges (fuel + 1) ids = .error e := by
  unfold encodeLoop
  rw [if_neg (by omega)]
  dsimp only
  rw [hmax]
  dsimp only
  rw [hfind]
  dsimp only
  rw [hmerge]

theorem encodeLoop_step_ok (merges : List ((Nat × Nat) × Nat)) (fuel : Nat)
    (ids ids2 : List Nat) (p : Nat × Nat) (fr idx : Nat) (h2 : 2 ≤ ids.length)
    (hmax : maxPair (count_pairs [ids]) = some (p, fr)) (hfind : findA merges p = some idx)
    (hmerge : merge ids p idx = .ok ids2) :
    encodeLoop merges (fuel + 1) ids = encodeLoop merges fuel ids2 := by
  conv_lhs => rw [encodeLoop.eq_def]
  rw [if_neg (by omega)]
  dsimp only
  rw [hmax]
  dsimp only
  rw [hfind]
  dsimp only
  rw [hmerge]

theorem initVocab_length : initVocab.length = 259 := by decide

theorem initVocab_get : ∀ b, b < 256 → initVocab.get? b = some [b] := by decide

theorem vocabBytes_bytes (vocab : List (List Nat)) :
    ∀ bs : List Nat, (∀ b ∈ bs, vocab.get? b = some [b]) → vocabBytes vocab bs = some bs := by
  intro bs
  induction bs with
  | nil => intro _; rfl
  | cons b rest ih =>
    intro h
    simp only [vocabBytes]
    rw [h b (by simp), ih (fun x hx => h x (by simp [hx]))]
    rfl

/-! ### Properties of one training step and of the training loop -/

/-- What a successful, merge-recording training iteration did: it picked the
first maximal pooled pair (of frequency ≠ 1), appended the merge entry with
the fresh id `len(vocab)`, appended the byte concatenation to the
vocabulary, and rewrote all sequences with `merge`. -/
theorem trainStep_ok_some {st : TKState} {seqs : List (List Nat)} {st2 : TKState}
    {seqs2 : List (List Nat)} (h : trainStep st seqs = .ok (some (st2, seqs2))) :
    ∃ pair freq v1 v2,
      maxPair (count_pairs seqs) = some (pair, freq) ∧ freq ≠ 1 ∧
      st.vocab.get? pair.1 = some v1 ∧ st.vocab.get? pair.2 = some v2 ∧
      mergeAll seqs pair st.vocab.length = .ok seqs2 ∧
      st2 = ⟨st.vocab ++ [v1 ++ v2], st.merges ++ [(pair, st.vocab.length)]⟩ := by
  unfold trainStep at h
  rcases hm : maxPair (count_pairs seqs) with _ | ⟨pair, freq⟩
  · rw [hm] at h
    exact absurd h (by simp)
  · rw [hm] at h
    dsimp only at h
    by_cases hf : freq = 1
    · rw [if_pos hf] at h
      exact absurd h (by simp)
    · rw [if_neg hf] at h
      rcases hv1 : st.vocab.get? pair.1 with _ | v1 <;> rw [hv1] at h
      · exact absurd h (by simp)
      · rcases hv2 : st.vocab.get? pair.2 with _ | v2 <;> rw [hv2] at h
        · exact absurd h (by simp)
        · dsimp only at h
          rcases hma : mergeAll seqs pair st.vocab.length with e | seqs2x <;> rw [hma] at h
          · exact absurd h (by simp)
          · simp only [Except.ok.injEq, Option.some.injEq, Prod.mk.injEq] at h
            exact ⟨pair, freq, v1, v2, rfl, hf, hv1, hv2, h.2 ▸ hma, h.1.symm⟩

/-- What a raising training iteration left behind: the state is unchanged
(`ValueError`), or carries the freshly recorded merge entry and vocabulary
entry (`IndexError` from the rewrite pass), or carries a merge entry without
its vocabulary entry (`KeyError`, only possible when a selected pair id is
missing from the vocabulary). -/
theorem trainStep_error {st : TKState} {seqs : List (List Nat)} {e : PyErr} {st3 : TKState}
    (h : trainStep st seqs = .error (e, st3)) :
    st3 = st ∨
    (∃ pair freq v1 v2,
      maxPair (count_pairs seqs) = some (pair, freq) ∧ freq ≠ 1 ∧
      st.vocab.get? pair.1 = some v1 ∧ st.vocab.get? pair.2 = some v2 ∧
      st3 = ⟨st.vocab ++ [v1 ++ v2], st.merges ++ [(pair, st.vocab.length)]⟩) ∨
    (∃ pair freq,
      maxPair (count_pairs seqs) = some (pair, freq) ∧ freq ≠ 1 ∧
      (st.vocab.get? pair.1 = none ∨ st.vocab.get? pair.2 = none)) := by
  unfold trainStep at h
  rcases hm : maxPair (count_pairs seqs) with _ | ⟨pair, freq⟩
  · rw [hm] at h
    simp only [Except.error.injEq, Prod.mk.injEq] at h
    exact Or.inl h.2.symm
  · rw [hm] at h
    dsimp only at h
    by_cases hf : freq = 1
    · rw [if_pos hf] at h
      exact absurd h (by simp)
    · rw [if_neg hf] at h
      rcases hv1 : st.vocab.get? pair.1 with _ | v1 <;> rw [hv1] at h
      · exact Or.inr (Or.inr ⟨pair, freq, rfl, hf, Or.inl hv1⟩)
      · rcases hv2 : st.vocab.get? pair.2 with _ | v2 <;> rw [hv2] at h
        · exact Or.inr (Or.inr ⟨pair, freq, rfl, hf, Or.inr hv2⟩)
        · dsimp only at h
          rcases hma : mergeAll seqs pair st.vocab.length with e2 | seqs2x <;> rw [hma] at h
          · simp only [Except.error.injEq, Prod.mk.injEq] at h
            exact Or.inr (Or.inl ⟨pair, freq, v1, v2, rfl, hf, hv1, hv2, h.2.symm⟩)
          · exact absurd h (by simp)

/-- Appending a sound merge entry and its concatenated vocabulary entry
preserves the merge-table invariant. -/
theorem extendInv {st : TKState} {pair : Nat × Nat} {v1 v2 : List Nat}
    (h1 : MergeInv st) (hp1 : st.vocab.get? pair.1 = some v1)
    (hp2 : st.vocab.get? pair.2 = some v2) :
    MergeInv ⟨st.vocab ++ [v1 ++ v2], st.merges ++ [(pair, st.vocab.length)]⟩ := by
  intro p n hmem
  simp only [List.mem_append, List.mem_singleton] at hmem
  rcases hmem with hold | hnew
  · obtain ⟨hb1, hb2, hbn, w1, w2, hw1, hw2, hwn⟩ := h1 p n hold
    refine ⟨hb1, hb2, by simp; omega, w1, w2, ?_, ?_, ?_⟩
    · rw [List.get?_append (by exact (List.get?_eq_some.mp hw1).1), hw1]
    · rw [List.get?_append (by exact (List.get?_eq_some.mp hw2).1), hw2]
    · rw [List.get?_append (by exact hbn), hwn]
  · injection hnew with hp hn
    subst p
    subst n
    have hb1 : pair.1 < st.vocab.length := (List.get?_eq_some.mp hp1).1
    have hb2 : pair.2 < st.vocab.length := (List.get?_eq_some.mp hp2).1
    refine ⟨hb1, hb2, by simp, v1, v2, ?_, ?_, ?_⟩
    · rw [List.get?_append hb1, hp1]
    · rw [List.get?_append hb2, hp2]
    · exact List.get?_concat_length st.vocab (v1 ++ v2)

theorem merge_ok_mem {l l2 : List Nat} {pair : Nat × Nat} {idx : Nat}
    (h : merge l pair idx = .ok l2) : ∀ x ∈ l2, x ∈ l ∨ x = idx := by
  rw [merge_eq] at h
  split at h
  · cases h
  · injection h with h2
    subst h2
    exact rewriteLR_mem l pair idx

theorem mergeAll_ok_mem {pair : Nat × Nat} {idx : Nat} :
    ∀ {seqs seqs2 : List (List Nat)}, mergeAll seqs pair idx = .ok seqs2 →
      ∀ l2 ∈ seqs2, ∃ l ∈ seqs, merge l pair idx = .ok l2 := by
  intro seqs
  induction seqs with
  | nil =>
    intro seqs2 h
    simp only [mergeAll] at h
    injection h with h2
    subst h2
    simp
  | cons l rest ih =>
    intro seqs2 h
    simp only [mergeAll] at h
    rcases hml : merge l pair idx with e | l2x <;> rw [hml] at h
    · cases h
    · rcases hmr : mergeAll rest pair idx with e | rest2 <;> rw [hmr] at h
      · cases h
      · injection h with h2
        subst h2
        intro l2 hl2
        rcases List.mem_cons.mp hl2 with h3 | h3
        · exact ⟨l, by simp, h3 ▸ hml⟩
        · obtain ⟨w, hw, hww⟩ := ih hmr l2 h3
          exact ⟨w, List.mem_cons_of_mem _ hw, hww⟩

/-- One merge-recording iteration preserves both invariants. -/
theorem step_preserves {st : TKState} {seqs : List (List Nat)} {st2 : TKState}
    {seqs2 : List (List Nat)} (hI : MergeInv st) (hS : SeqsOk st seqs)
    (h : trainStep st seqs = .ok (some (st2, seqs2))) :
    MergeInv st2 ∧ SeqsOk st2 seqs2 := by
  obtain ⟨pair, freq, v1, v2, hm, hf, hv1, hv2, hma, hst2⟩ := trainStep_ok_some h
  subst hst2
  refine ⟨extendInv hI hv1 hv2, ?_⟩
  intro l2 hl2 x hx
  obtain ⟨l, hl, hml⟩ := mergeAll_ok_mem hma l2 hl2
  rcases merge_ok_mem hml x hx with h3 | h3
  · have := hS l hl x h3
    simp
    omega
  · simp [h3]

/-- Under `SeqsOk` every id the pair counter can select has a vocabulary
entry, so the `KeyError` branch of a training iteration is unreachable. -/
theorem selected_pair_in_vocab {st : TKState} {seqs : List (List Nat)} {pair : Nat × Nat}
    {freq : Nat} (hS : SeqsOk st seqs)
    (hm : maxPair (count_pairs seqs) = some (pair, freq)) :
    pair.1 < st.vocab.length ∧ pair.2 < st.vocab.length := by
  obtain ⟨l, hl, hpl⟩ := maxPair_pair_in_data seqs pair freq hm
  obtain ⟨h1, h2⟩ := adjPairs_mem l pair.1 pair.2 hpl
  exact ⟨hS l hl _ h1, hS l hl _ h2⟩

/-- The merge-table invariant holds for the state left behind by the
training loop, whether it returns normally or raises. -/
theorem trainLoop_inv : ∀ (n : Nat) (st : TKState) (seqs : List (List Nat)),
    MergeInv st → SeqsOk st seqs → MergeInv (runState (trainLoop n st seqs)) := by
  intro n
  induction n with
  | zero => intro st seqs hI _; exact hI
  | succ n ih =>
    intro st seqs hI hS
    simp only [trainLoop]
    rcases hs : trainStep st seqs with ⟨e, st3⟩ | o
    · simp only [runState]
      rcases trainStep_error hs with h | h | h
      · exact h ▸ hI
      · obtain ⟨pair, freq, v1, v2, hm, hf, hv1, hv2, hst3⟩ := h
        exact hst3 ▸ extendInv hI hv1 hv2
      · obtain ⟨pair, freq, hm, hf, hnone⟩ := h
        obtain ⟨hb1, hb2⟩ := selected_pair_in_vocab hS hm
        rcases hnone with hn | hn
        · rw [List.get?_eq_none] at hn
          omega
        · rw [List.get?_eq_none] at hn
          omega
    · rcases o with _ | ⟨st2, seqs2⟩
      · exact hI
      · obtain ⟨hI2, hS2⟩ := step_preserves hI hS hs
        exact ih st2 seqs2 hI2 hS2

/-- Each completed loop run adds the same number `k ≤ n` of vocabulary
entries and merge entries. -/
theorem trainLoop_growth : ∀ (n : Nat) (st : TKState) (seqs : List (List Nat)) (st2 : TKState),
    trainLoop n st seqs = .ok st2 →
    ∃ k ≤ n, st2.vocab.length = st.vocab.length + k ∧
      st2.merges.length = st.merges.length + k := by
  intro n
  induction n with
  | zero =>
    intro st seqs st2 h
    simp only [trainLoop] at h
    injection h with h2
    subst h2
    exact ⟨0, by omega, by omega, by omega⟩
  | succ n ih =>
    intro st seqs st2 h
    simp only [trainLoop] at h
    rcases hs : trainStep st seqs with ⟨e, st3⟩ | o <;> rw [hs] at h
    · cases h
    · rcases o with _ | ⟨stm, seqsm⟩
      · injection h with h2
        subst h2
        exact ⟨0, by omega, by omega, by omega⟩
      · obtain ⟨pair, freq, v1, v2, _, _, _, _, _, hstm⟩ := trainStep_ok_some hs
        obtain ⟨k, hk, hkv, hkm⟩ := ih stm seqsm st2 h
        subst hstm
        simp only [List.length_append, List.length_singleton] at hkv hkm
        exact ⟨k + 1, by omega, by omega, by omega⟩

theorem initState_vocab_len : initState.vocab.length = 259 := by decide

/-! ### Fuel sufficiency of the encode loop -/

theorem countAdj_cons (a b : Nat) (t : List Nat) (p : Nat × Nat) :
    countAdj (a :: b :: t) p = countAdj (b :: t) p + if (a, b) = p then 1 else 0 := by
  have h : adjPairs (a :: b :: t) = (a, b) :: adjPairs (b :: t) := rfl
  unfold countAdj
  rw [h, List.count_cons]
  by_cases hp : (a, b) = p <;> simp [hp]

theorem rewriteLR_length_le :
    ∀ (l : List Nat) (p : Nat × Nat) (idx : Nat), (rewriteLR l p idx).length ≤ l.length
  | [], _, _ => by simp [rewriteLR]
  | [a], _, _ => by simp [rewriteLR]
  | a :: b :: t, p, idx => by
    simp only [rewriteLR]
    split
    · have := rewriteLR_length_le t p idx
      simp only [List.length_cons]
      omega
    · have := rewriteLR_length_le (b :: t) p idx
      simp only [List.length_cons] at this ⊢
      omega

theorem rewriteLR_length_lt :
    ∀ (l : List Nat) (p : Nat × Nat) (idx : Nat), 0 < countAdj l p →
      (rewriteLR l p idx).length < l.length
  | [], p, idx => by simp [countAdj, adjPairs]
  | [a], p, idx => by simp [countAdj, adjPairs]
  | a :: b :: t, p, idx => by
    intro hocc
    rw [countAdj_cons] at hocc
    simp only [rewriteLR]
    by_cases hp : (a, b) = p
    · rw [if_pos hp]
      have := rewriteLR_length_le t p idx
      simp only [List.length_cons]
      omega
    · rw [if_neg hp]
      rw [if_neg hp] at hocc
      have := rewriteLR_length_lt (b :: t) p idx (by omega)
      simp only [List.length_cons] at this ⊢
      omega

/-- With fuel at least `ids.length - 1`, the encode loop never exhausts its
fuel: each applied merge strictly shortens the working sequence, so the
`.fuel` marker is unreachable from `bpeEncode` (which passes `ids.length`).
The loop therefore computes exactly the unbounded `while` loop of the
Python source. -/
theorem encodeLoop_no_fuel :
    ∀ (fuel : Nat) (merges : List ((Nat × Nat) × Nat)) (ids : List Nat),
      ids.length ≤ fuel + 1 → encodeLoop merges fuel ids ≠ .error .fuel := by
  intro fuel
  induction fuel with
  | zero =>
    intro merges ids h
    rw [encodeLoop_stop_short merges 0 ids (by omega)]
    simp
  | succ f ih =>
    intro merges ids h
    by_cases h1 : ids.length ≤ 1
    · rw [encodeLoop_stop_short merges (f + 1) ids h1]
      simp
    · have h2 : 2 ≤ ids.length := by omega
      obtain ⟨x, xs, hcp⟩ : ∃ x xs, count_pairs [ids] = x :: xs := by
        rcases hl : count_pairs [ids] with _ | ⟨x, xs⟩
        · exact absurd hl (count_pairs_single_ne_nil ids h2)
        · exact ⟨x, xs, rfl⟩
      have hmax : ∃ pf, maxPair (count_pairs [ids]) = some pf := by
        rw [hcp]
        exact ⟨_, rfl⟩
      obtain ⟨⟨p, fr⟩, hmax⟩ := hmax
      rcases hfind : findA merges p with _ | idx
      · rw [encodeLoop_stop_nomerge merges f ids p fr h2 hmax hfind]
        simp
      · rcases hmg : merge ids p idx with e | ids2
        · rw [encodeLoop_step_error merges f ids p fr idx e h2 hmax hfind hmg]
          rw [merge_eq] at hmg
          split at hmg
          · injection hmg with he
            subst e
            simp
          · cases hmg
        · rw [encodeLoop_step_ok merges f ids ids2 p fr idx h2 hmax hfind hmg]
          apply ih
          have hcnt := (maxPair_count_max ids p fr hmax).1
          have hfr : 1 ≤ fr := count_pairs_pos [ids] (p, fr) (maxPair_mem _ _ hmax)
          rw [merge_eq] at hmg
          split at hmg
          · cases hmg
          · injection hmg with he
            have hlt := rewriteLR_length_lt ids p idx (by omega)
            rw [← he]
            omega

/-! ### The claims -/

/-- Claim C1: the spec asserts `encode(text)` never raises for any valid
Unicode string against any trained tokenizer state.  The code violates
this: after `train(["aaab", "aaab"], 260)` — which succeeds and records the
single merge `(97,97) ↦ 259` — `encode("aa")` selects pair `(97,97)`, finds
it in the merge table, and `merge([97,97], (97,97), 259)` raises
`IndexError` because the replaced occurrence ends at the last index and the
loop guard `i != len(numbers)-1` steps past the end.  This theorem
evaluates the embedded code at that failing input. -/
theorem trained_encode_raises_index_error :
    train [[97, 97, 97, 98], [97, 97, 97, 98]] 260 =
      .ok ⟨initVocab ++ [[97, 97]], [((97, 97), 259)]⟩
  ∧ bpeEncode ⟨initVocab ++ [[97, 97]], [((97, 97), 259)]⟩ [97, 97] =
      .error .indexError := by
  decide

/-- Claim C2 (counterexample): with an empty corpus and target 260 the
Python training loop does not terminate cleanly: `count_pairs` yields an
empty dict and `max({})` raises `ValueError`, leaving the freshly reset
259-entry state behind — the claim said train terminates immediately
without raising. -/
theorem train_empty_corpus_raises :
    train [] 260 = .error (.valueError, initState) ∧ initState.vocab.length = 259 := by
  decide

/-- Claim C2 (amended): with a corpus whose texts all encode to at most one
UTF-8 byte (in particular an empty corpus), `train` returns at once with
the reset 259-entry state when the target is at most 259, and raises
`ValueError` at the first iteration's `max` over the empty pair dict when
the target exceeds 259; either way no merge is recorded and the vocabulary
stays at 259 entries. -/
theorem train_degenerate_corpus (texts : List (List Nat)) (mv : Nat)
    (h : ∀ t ∈ texts, (utf8Encode t).length ≤ 1) :
    (mv ≤ 259 → train texts mv = .ok initState)
  ∧ (259 < mv → train texts mv = .error (.valueError, initState)) := by
  have hcp : count_pairs (texts.map utf8Encode) = [] := by
    apply count_pairs_short
    intro l hl
    obtain ⟨t, ht, rfl⟩ := List.mem_map.mp hl
    exact h t ht
  have hst : trainStep initState (texts.map utf8Encode) = .error (.valueError, initState) := by
    unfold trainStep
    rw [hcp]
    rfl
  constructor
  · intro hmv
    unfold train
    rw [if_pos (by rw [initState_vocab_len]; omega)]
  · intro hmv
    unfold train
    rw [if_neg (by rw [initState_vocab_len]; omega)]
    have hk : mv - initState.vocab.length = (mv - initState.vocab.length - 1) + 1 := by
      rw [initState_vocab_len]
      omega
    rw [hk]
    simp only [trainLoop]
    rw [hst]

theorem train_degenerate_corpus_witness :
    train [[97]] 260 = .error (.valueError, initState) :=
  (train_degenerate_corpus [[97]] 260 (by decide)).2 (by omega)

/-- Claim C3: `train(["aaab", "aaab"], 260)` pools frequencies 4 for
`(97,97)` and 2 for `(97,98)`, selects `(97,97)`, assigns it the fresh id
259 with `vocab[259] = b"aa"`, rewrites each working sequence
`[97,97,97,98]` to `[259,97,98]` (the overlapping second occurrence of
`(97,97)` is not merged in the same pass), and stops with 260 vocabulary
entries and merge table `{(97,97): 259}`. -/
theorem train_aaab_scenario :
    lookA (count_pairs [[97, 97, 97, 98], [97, 97, 97, 98]]) (97, 97) = 4
  ∧ lookA (count_pairs [[97, 97, 97, 98], [97, 97, 97, 98]]) (97, 98) = 2
  ∧ maxPair (count_pairs [[97, 97, 97, 98], [97, 97, 97, 98]]) = some ((97, 97), 4)
  ∧ merge [97, 97, 97, 98] (97, 97) 259 = .ok [259, 97, 98]
  ∧ train [[97, 97, 97, 98], [97, 97, 97, 98]] 260 =
      .ok ⟨initVocab ++ [[97, 97]], [((97, 97), 259)]⟩
  ∧ (initVocab ++ [[97, 97]]).length = 260
  ∧ (initVocab ++ [[97, 97]]).get? 259 = some [97, 97] := by
  decide

/-- Claim C4: merge-table soundness.  For every run of `train` on a corpus
of valid Unicode strings — whether it returns normally or raises — every
recorded entry `(left, right) ↦ n` of the final merge table satisfies:
`left` and `right` were already in the vocabulary when the entry was
recorded (both are below `n`, the vocabulary size at that moment), and
`vocab[n]` is the byte concatenation `vocab[left] ++ vocab[right]`.
Moreover each merge-recording iteration preserves this invariant (together
with the in-range invariant on the working sequences), so it holds after
every training iteration. -/
theorem merge_table_sound :
    (∀ texts mv, (∀ t ∈ texts, ValidStr t) → MergeInv (runState (train texts mv)))
  ∧ (∀ st seqs st2 seqs2, MergeInv st → SeqsOk st seqs →
      trainStep st seqs = .ok (some (st2, seqs2)) → MergeInv st2 ∧ SeqsOk st2 seqs2) := by
  constructor
  · intro texts mv hv
    have hI : MergeInv initState := by
      intro p n hmem
      exact absurd hmem (by simp [initState])
    unfold train
    by_cases hc : mv ≤ initState.vocab.length
    · rw [if_pos hc]
      exact hI
    · rw [if_neg hc]
      apply trainLoop_inv _ _ _ hI
      intro l hl x hx
      obtain ⟨t, ht, rfl⟩ := List.mem_map.mp hl
      have hb : x < 256 := utf8Encode_lt t (fun c hc2 => (hv t ht c hc2).1) x hx
      rw [initState_vocab_len]
      omega
  · intro st seqs st2 seqs2 hI hS h
    exact step_preserves hI hS h

theorem merge_table_sound_witness :
    97 < 259 ∧ 97 < 259 ∧ 259 < (initVocab ++ [[97, 97]]).length ∧
      ∃ v1 v2, (initVocab ++ [[97, 97]]).get? 97 = some v1 ∧
        (initVocab ++ [[97, 97]]).get? 97 = some v2 ∧
        (initVocab ++ [[97, 97]]).get? 259 = some (v1 ++ v2) := by
  have h := merge_table_sound.1 [[97, 97, 97, 98], [97, 97, 97, 98]] 260 (by decide)
  have he : runState (train [[97, 97, 97, 98], [97, 97, 97, 98]] 260) =
      ⟨initVocab ++ [[97, 97]], [((97, 97), 259)]⟩ := by decide
  rw [he] at h
  exact h (97, 97) 259 (by decide)

/-- Claim C5: with the untrained base 259-entry vocabulary and empty merge
table, `decode(encode(s))` reproduces any valid Unicode string `s`
exactly, and neither call fails: `encode` returns the raw UTF-8 bytes
(the first selected pair is never in the empty merge table), every byte id
is covered by the base vocabulary, and strict UTF-8 decoding inverts the
encoding. -/
theorem untrained_round_trip (s : List Nat) (hs : ValidStr s) :
    ∃ ids, bpeEncode initState s = .ok ids ∧ bpeDecode initState ids = some s := by
  refine ⟨utf8Encode s, ?_, ?_⟩
  · unfold bpeEncode
    by_cases h1 : (utf8Encode s).length ≤ 1
    · exact encodeLoop_stop_short _ _ _ h1
    · have h2 : 2 ≤ (utf8Encode s).length := by omega
      obtain ⟨x, xs, hcp⟩ : ∃ x xs, count_pairs [utf8Encode s] = x :: xs := by
        rcases hl : count_pairs [utf8Encode s] with _ | ⟨x, xs⟩
        · exact absurd hl (count_pairs_single_ne_nil _ h2)
        · exact ⟨x, xs, rfl⟩
      have hmax : ∃ pf, maxPair (count_pairs [utf8Encode s]) = some pf := by
        rw [hcp]
        exact ⟨_, rfl⟩
      obtain ⟨⟨p, fr⟩, hmax⟩ := hmax
      have hf : (utf8Encode s).length = ((utf8Encode s).length - 1) + 1 := by omega
      rw [hf]
      exact encodeLoop_stop_nomerge _ _ _ p fr h2 hmax rfl
  · unfold bpeDecode
    have hbytes : ∀ b ∈ utf8Encode s, initState.vocab.get? b = some [b] := by
      intro b hb
      exact initVocab_get b (utf8Encode_lt s (fun c hc => (hs c hc).1) b hb)
    rw [vocabBytes_bytes _ _ hbytes]
    simp [utf8_round_trip s hs]

theorem untrained_round_trip_witness :
    ∃ ids, bpeEncode initState [97, 1071, 9731, 128512] = .ok ids ∧
      bpeDecode initState ids = some [97, 1071, 9731, 128512] :=
  untrained_round_trip [97, 1071, 9731, 128512] (by decide)

/-- Claim C6: in every iteration of the encode loop the pair looked up in
the merge table is a maximum-frequency adjacent pair of the *current
working sequence* (its count within the text being encoded equals the
selection value, which no pair exceeds — selection is not by any stored
training rank), and the loop stops with the current sequence exactly when
its length is at most 1 or when that selected pair is absent from the
merge table; when the pair is present the iteration applies `merge` to it
(raising what `merge` raises, or continuing on the rewritten sequence). -/
theorem encode_pair_selection :
    ∀ (merges : List ((Nat × Nat) × Nat)) (fuel : Nat) (ids : List Nat),
      (ids.length ≤ 1 → encodeLoop merges fuel ids = .ok ids)
    ∧ (∀ p f, maxPair (count_pairs [ids]) = some (p, f) →
        countAdj ids p = f ∧ (∀ q, countAdj ids q ≤ f))
    ∧ (∀ p f, 2 ≤ ids.length → maxPair (count_pairs [ids]) = some (p, f) →
        findA merges p = none → encodeLoop merges (fuel + 1) ids = .ok ids)
    ∧ (∀ p f idx e, 2 ≤ ids.length → maxPair (count_pairs [ids]) = some (p, f) →
        findA merges p = some idx → merge ids p idx = .error e →
        encodeLoop merges (fuel + 1) ids = .error e)
    ∧ (∀ p f idx ids2, 2 ≤ ids.length → maxPair (count_pairs [ids]) = some (p, f) →
        findA merges p = some idx → merge ids p idx = .ok ids2 →
        encodeLoop merges (fuel + 1) ids = encodeLoop merges fuel ids2) := by
  intro merges fuel ids
  exact ⟨encodeLoop_stop_short merges fuel ids,
    fun p f h => maxPair_count_max ids p f h,
    fun p f h2 hm hf => encodeLoop_stop_nomerge merges fuel ids p f h2 hm hf,
    fun p f idx e h2 hm hf hmg => encodeLoop_step_error merges fuel ids p f idx e h2 hm hf hmg,
    fun p f idx ids2 h2 hm hf hmg => encodeLoop_step_ok merges fuel ids ids2 p f idx h2 hm hf hmg⟩

theorem encode_pair_selection_witness :
    countAdj [97, 97, 98] (97, 97) = 1 ∧ countAdj [97, 97, 98] (97, 98) ≤ 1 := by
  have h := (encode_pair_selection [] 0 [97, 97, 98]).2.1 (97, 97) 1 (by decide)
  exact ⟨h.1, h.2 (97, 98)⟩

/-- Claim C7 (counterexample): for a target vocabulary size below 259 the
final vocabulary still has 259 entries, so «the final vocabulary size never
exceeds target_vocab_size» fails at target 100. -/
theorem train_small_target_vocab_exceeds :
    train [] 100 = .ok initState ∧ initState.vocab.length = 259 ∧
      ¬initState.vocab.length ≤ 100 := by
  decide

/-- Claim C7 (amended): each merge-recording training iteration grows both
the vocabulary and the merge table by exactly one entry; after any normal
return of `train` the vocabulary size is exactly `259 + N` where `N` is the
number of recorded merges, `N` is at most `target_vocab_size - 259`, and
the final vocabulary size never exceeds `max target_vocab_size 259` (it
never exceeds `target_vocab_size` itself whenever the target is at least
the base size 259). -/
theorem train_growth :
    (∀ st seqs st2 seqs2, trainStep st seqs = .ok (some (st2, seqs2)) →
        st2.vocab.length = st.vocab.length + 1 ∧ st2.merges.length = st.merges.length + 1)
  ∧ (∀ texts mv st, train texts mv = .ok st →
        st.vocab.length = 259 + st.merges.length ∧
        st.merges.length ≤ mv - 259 ∧
        st.vocab.length ≤ max mv 259) := by
  constructor
  · intro st seqs st2 seqs2 h
    obtain ⟨pair, freq, v1, v2, _, _, _, _, _, hst2⟩ := trainStep_ok_some h
    subst hst2
    simp
  · intro texts mv st h
    have hmax1 : mv ≤ max mv 259 := Nat.le_max_left mv 259
    have hmax2 : 259 ≤ max mv 259 := Nat.le_max_right mv 259
    unfold train at h
    by_cases hc : mv ≤ initState.vocab.length
    · rw [if_pos hc] at h
      injection h with h2
      subst h2
      rw [initState_vocab_len] at hc ⊢
      refine ⟨by simp [initState], by simp [initState], by omega⟩
    · rw [if_neg hc] at h
      obtain ⟨k, hk, hkv, hkm⟩ := trainLoop_growth _ _ _ _ h
      rw [initState_vocab_len] at hc hk hkv
      have him : initState.merges.length = 0 := by decide
      rw [him] at hkm
      refine ⟨by omega, by omega, by omega⟩

theorem train_growth_witness :
    (TKState.mk (initVocab ++ [[97, 97]]) [((97, 97), 259)]).vocab.length =
        259 + (TKState.mk (initVocab ++ [[97, 97]]) [((97, 97), 259)]).merges.length
  ∧ (TKState.mk (initVocab ++ [[97, 97]]) [((97, 97), 259)]).merges.length ≤ 260 - 259
  ∧ (TKState.mk (initVocab ++ [[97, 97]]) [((97, 97), 259)]).vocab.length ≤ max 260 259 :=
  train_growth.2 [[97, 97, 97, 98], [97, 97, 97, 98]] 260 _ (by decide)

/-- Claim C8: for any corpus and any target of at most 259, `train` returns
as a success with the freshly reset state: exactly 259 vocabulary entries —
ids 0–255 each mapping to its own single byte and ids 256, 257, 258 mapping
to the pad, beginning-of-sequence and end-of-sequence byte strings in that
order (these are also the ids the reverse lookup assigns to the three
special tokens) — and an empty merge table. -/
theorem train_noop (texts : List (List Nat)) (mv : Nat) (h : mv ≤ 259) :
    train texts mv = .ok initState
  ∧ initState.vocab.length = 259
  ∧ (∀ b, b < 256 → initState.vocab.get? b = some [b])
  ∧ initState.vocab.get? 256 = some padTokenBytes
  ∧ initState.vocab.get? 257 = some bosTokenBytes
  ∧ initState.vocab.get? 258 = some eosTokenBytes
  ∧ tokenToId initState.vocab padTokenBytes = some 256
  ∧ tokenToId initState.vocab bosTokenBytes = some 257
  ∧ tokenToId initState.vocab eosTokenBytes = some 258
  ∧ initState.merges = [] := by
  refine ⟨?_, by decide, initVocab_get, by decide, by decide, by decide, by decide, by decide,
    by decide, rfl⟩
  unfold train
  rw [if_pos (by rw [initState_vocab_len]; omega)]

theorem train_noop_witness :
    train [[99, 100]] 100 = .ok initState ∧ initState.merges = [] :=
  ⟨(train_noop [[99, 100]] 100 (by omega)).1,
    (train_noop [[99, 100]] 100 (by omega)).2.2.2.2.2.2.2.2.2⟩

/-- Claim C9 (counterexample): `merge` is not pure.  Calling
`merge([97,98,99], (97,98), 259)` leaves the caller's list object holding
`[259,99]` — not its original value `[97,98,99]` — because the rewrite is
performed in place (`numbers[i] = idx` / `del numbers[i+1]`) and the
function returns that same object rather than a separate value. -/
theorem merge_argument_mutated :
    mergeCall [97, 98, 99] (97, 98) 259 = some ([259, 99], [259, 99]) ∧
      ([259, 99] : List Nat) ≠ [97, 98, 99] := by
  decide

/-- Claim C9 (amended): `merge` computes the left-to-right non-overlapping
rewrite, but it mutates the list passed as `numbers` in place and returns
that same object: whenever the call returns, the final value of the
argument list and the returned value coincide, and both equal the rewrite
of the original contents. -/
theorem merge_mutates_in_place :
    ∀ (numbers : List Nat) (pair : Nat × Nat) (idx : Nat) (stv ret : List Nat),
      mergeCall numbers pair idx = some (stv, ret) →
      stv = ret ∧ ret = rewriteLR numbers pair idx := by
  intro numbers pair idx stv ret h
  unfold mergeCall at h
  rcases hm : merge numbers pair idx with e | r <;> rw [hm] at h
  · cases h
  · simp only [Option.some.injEq, Prod.mk.injEq] at h
    obtain ⟨h1, h2⟩ := h
    subst h1
    subst h2
    rw [merge_eq] at hm
    split at hm
    · cases hm
    · injection hm with h3
      exact ⟨rfl, h3.symm⟩

theorem merge_mutates_in_place_witness :
    ([259, 99] : List Nat) = [259, 99] ∧
      ([259, 99] : List Nat) = rewriteLR [97, 98, 99] (97, 98) 259 :=
  merge_mutates_in_place [97, 98, 99] (97, 98) 259 [259, 99] [259, 99] (by decide)

/-- Claim C10: `merge` is not total.  It raises `IndexError` exactly when
the list is empty or when the left-to-right scan replaces an occurrence of
the pair ending at the last index of the (shortened) list — the `crashes`
predicate, whose recursion mirrors the scan; in particular
`merge([97,98], (97,98), 259)` raises instead of returning `[259]`.  In
every other case it returns the left-to-right non-overlapping rewrite. -/
theorem merge_totality_characterisation :
    (∀ p idx, merge [] p idx = .error .indexError)
  ∧ merge [97, 98] (97, 98) 259 = .error .indexError
  ∧ (∀ numbers p idx, merge numbers p idx = .error .indexError ↔ crashes numbers p = true)
  ∧ (∀ numbers p idx, crashes numbers p = false →
      merge numbers p idx = .ok (rewriteLR numbers p idx)) := by
  refine ⟨?_, by decide, ?_, ?_⟩
  · intro p idx
    rw [merge_eq]
    simp [crashes]
  · intro numbers p idx
    rw [merge_eq]
    cases hc : crashes numbers p <;> simp [hc]
  · intro numbers p idx h
    rw [merge_eq, if_neg (by simp [h])]

theorem merge_totality_characterisation_witness :
    merge [97, 97, 97] (97, 97) 259 = .ok (rewriteLR [97, 97, 97] (97, 97) 259) :=
  merge_totality_characterisation.2.2.2 [97, 97, 97] (97, 97) 259 (by decide)

end BPE
